import Mathlib

/-!
# The pi-estimation example of gleam (`examples/pi_estimation/pi_estimation.go`)

A shallow embedding of the example program and the properties of its
Monte Carlo pipelines.

Modelling conventions.

* Go's `int` is a 64-bit two's-complement integer.  Values are `Int`, and every
  Go addition is followed by `wrap64`, the reduction into `[-2^63, 2^63)`.
* The random source (`rand.Float64`, `rand.Float32`, Lua's `math.random`) is a
  stream `draw : Nat → F` of successive results together with the number of
  draws already consumed.  The arithmetic of the sample type `F` (its `*`, `+`,
  `1` and `<`) is left abstract, so every statement holds for whatever
  arithmetic the samples carry; concrete evaluations use `ℚ` and `BinFloat`,
  binary floating point of 24 bits (`float32`) and of 53 bits (`float64`).
* A Lua number is a double.  The reduce of the gleam pipelines adds whole
  numbers, so a Lua number is `some z` for a whole number `z` that is a double,
  or `none` for a value that is not finite.
* A Go loop `for i := 0; i < bound; i++ { body }` is run step by step on
  configurations `(i, state)`; `forLoop` returns a result only if the loop
  condition is false after the given number of steps.
-/

namespace PiEstimation

set_option maxRecDepth 8000

/-! ## Machine integers and the counted loop -/

/-- Reduction of an integer into the range of Go's 64-bit `int`. -/
def wrap64 (z : Int) : Int := (z + 2 ^ 63) % 2 ^ 64 - 2 ^ 63

/-- One step of `for i := 0; i < bound; i++ { body }` on a configuration
`(i, state)`: when `i < bound` the body runs and `i` is incremented, otherwise
the configuration is final and stays as it is. -/
def loopStep {σ : Type} (bound : Int) (body : Int → σ → σ) (c : Int × σ) : Int × σ :=
  if c.1 < bound then (wrap64 (c.1 + 1), body c.1 c.2) else c

/-- The configuration reached after `n` steps. -/
def loopRun {σ : Type} (bound : Int) (body : Int → σ → σ) : Nat → Int × σ → Int × σ
  | 0, c => c
  | n + 1, c => loopRun bound body n (loopStep bound body c)

/-- The loop `for i := 0; i < bound; i++ { body }` started in `init`, run for at
most `fuel` steps: `none` if the loop is still running then. -/
def forLoop {σ : Type} (bound : Int) (body : Int → σ → σ) (fuel : Nat) (init : σ) : Option σ :=
  let c := loopRun bound body fuel (0, init)
  if c.1 < bound then none else some c.2

/-- The value printed by `fmt.Printf("pi = %f\n", 4.0*float64(count)/float64(times))`,
read in exact arithmetic; `none` stands for the quotient `0/0` of `times = 0`,
which is not a number. -/
def piEstimate (count times : Int) : Option ℚ :=
  if times = 0 then none else some (4 * (count : ℚ) / (times : ℚ))

/-! ## Binary floating point -/

/-- The number of binary digits of `m`, counted with at most `fuel` halvings. -/
def bitLen : Nat → Nat → Nat
  | 0, _ => 0
  | fuel + 1, m => if m = 0 then 0 else bitLen fuel (m / 2) + 1

/-- The number of binary digits of `m`. -/
def bits (m : Nat) : Nat := bitLen m m

/-- Rounding of the natural number `m` to `p` significant binary digits, to the
nearest such number, a tie going to the one with an even last digit. -/
def roundMant (p m : Nat) : Nat :=
  let k := bits m - p
  let q := m / 2 ^ k
  let r := m % 2 ^ k
  (if 2 ^ k < 2 * r ∨ (2 * r = 2 ^ k ∧ q % 2 = 1) then q + 1 else q) * 2 ^ k

/-- The double nearest to the whole number `z`; `none` when the rounded value
reaches `2 ^ 1024`, which overflows to an infinity. -/
def roundDouble (z : Int) : Option Int :=
  let r := roundMant 53 z.natAbs
  if bits r ≤ 1024 then some (if z < 0 then -(r : Int) else (r : Int)) else none

/-- A non-negative binary floating-point number `mant / 2 ^ scale` of a format
with `p` significant digits: `p = 24` is `float32`, `p = 53` is `float64`.  The
limits of the exponent are not modelled: the results of `rand.Float32()` and
`rand.Float64()` are multiples of `2^-24` and `2^-53` in `[0, 1)`, whose
squares and sums of two squares neither underflow nor overflow. -/
structure BinFloat (p : Nat) where
  mant : Nat
  scale : Nat
  deriving DecidableEq, Repr

/-- The product, rounded to the format. -/
instance BinFloat.instMul (p : Nat) : Mul (BinFloat p) :=
  ⟨fun a b => ⟨roundMant p (a.mant * b.mant), a.scale + b.scale⟩⟩

/-- The sum, rounded to the format. -/
instance BinFloat.instAdd (p : Nat) : Add (BinFloat p) :=
  ⟨fun a b => ⟨roundMant p (a.mant * 2 ^ b.scale + b.mant * 2 ^ a.scale), a.scale + b.scale⟩⟩

instance BinFloat.instOne (p : Nat) : One (BinFloat p) := ⟨⟨1, 0⟩⟩

/-- The order of the values `mant / 2 ^ scale`. -/
instance BinFloat.instLT (p : Nat) : LT (BinFloat p) :=
  ⟨fun a b => a.mant * 2 ^ b.scale < b.mant * 2 ^ a.scale⟩

instance BinFloat.instDecidableLT (p : Nat) : DecidableRel (fun a b : BinFloat p => a < b) :=
  fun a b => inferInstanceAs (Decidable (a.mant * 2 ^ b.scale < b.mant * 2 ^ a.scale))

/-! ## The reduce combiners -/

/-- The combiner of `testLocalFlow`: `func(x, y int) int { return x + y }`. -/
def goCombine (x y : Int) : Int := wrap64 (x + y)

/-- The Lua combiner of `testLocalGleam` and `testDistributedGleam`:
`function count(x, y) return x + y end`.  Lua adds doubles: on whole numbers the
result is the exact sum rounded to the nearest double, and a value that is not
finite stays so. -/
def luaCount (x y : Option Int) : Option Int :=
  match x, y with
  | some a, some b => roundDouble (a + b)
  | _, _ => none

/-- A reduce without an identity value: the first element seeds the accumulator
and the combiner folds the remaining ones in from the left; an empty input
gives no value. -/
def localReduce {α : Type} (f : α → α → α) : List α → Option α
  | [] => none
  | x :: xs => some (xs.foldl f x)

section Sampling

variable {F : Type} [Mul F] [Add F] [One F] [LT F] [DecidableRel (fun a b : F => a < b)]

/-! ## `testPureGo` -/

/-- The variables of `testPureGo` besides the loop index: `count`, and the number
of samples drawn so far. -/
structure PureGoState where
  count : Int
  pos : Nat
  deriving DecidableEq, Repr

/-- The loop body of `testPureGo`:
`x, y := rand.Float64(), rand.Float64(); if x*x+y*y < 1 { count++ }`. -/
def pureGoBody (draw : Nat → F) (_i : Int) (s : PureGoState) : PureGoState :=
  let x := draw s.pos
  let y := draw (s.pos + 1)
  { count := if x * x + y * y < 1 then wrap64 (s.count + 1) else s.count
    pos := s.pos + 2 }

/-- The configuration `(i, count, draws consumed)` of the loop of `testPureGo`
after `n` steps. -/
def pureGoRun (times : Int) (draw : Nat → F) (n : Nat) : Int × PureGoState :=
  loopRun times (pureGoBody draw) n (0, { count := 0, pos := 0 })

/-- The function `testPureGo(times)`: the final `count` and the printed estimate. -/
def testPureGo (times : Int) (draw : Nat → F) (fuel : Nat) : Option (Int × Option ℚ) :=
  (forLoop times (pureGoBody draw) fuel { count := 0, pos := 0 }).map
    fun s => (s.count, piEstimate s.count times)

/-- The number of indices `i < n` whose sampled point `(x_i, y_i)`, the draws
`2 i` and `2 i + 1` of the stream, satisfies `x_i*x_i + y_i*y_i < 1`. -/
def hits (draw : Nat → F) (n : Nat) : Nat :=
  (List.range n).countP
    fun i => decide (draw (2 * i) * draw (2 * i) + draw (2 * i + 1) * draw (2 * i + 1) < 1)

/-! ## `testLocalFlow` -/

/-- The source goroutine of `testLocalFlow`:
`for i := 0; i < times; i++ { ch <- i }; close(ch)`; the result is the sequence
of values sent on the channel. -/
def flowSource (times : Int) (fuel : Nat) : Option (List Int) :=
  forLoop times (fun i sent => sent ++ [i]) fuel []

/-- The map function of `testLocalFlow`:
`x, y := rand.Float32(), rand.Float32(); if x*x+y*y < 1 { return 1 }; return 0`,
with the two draws passed in. -/
def flowMapFn (_t : Int) (x y : F) : Int :=
  if x * x + y * y < 1 then 1 else 0

/-- The map stage of `testLocalFlow` over the elements of the channel, in order;
`pos` is the number of samples drawn so far. -/
def flowMapStage (draw : Nat → F) : Nat → List Int → List Int
  | _, [] => []
  | pos, t :: ts => flowMapFn t (draw pos) (draw (pos + 1)) :: flowMapStage draw (pos + 2) ts

/-- The function `testLocalFlow(times)`: what the final stage prints, once for each
value the reduce stage delivers (the count and the estimate). -/
def testLocalFlow (times : Int) (draw : Nat → F) (fuel : Nat) :
    Option (List (Int × Option ℚ)) :=
  (flowSource times fuel).map fun ch =>
    (localReduce goCombine (flowMapStage draw 0 ch)).toList.map
      fun count => (count, piEstimate count times)

/-! ## `testLocalGleam` and `testDistributedGleam` -/

/-- The Lua map function of `testLocalGleam` and `testDistributedGleam`:
`local x, y = math.random(), math.random(); if x*x+y*y < 1 then return 1 end`.
The function has no other `return`: outside the circle it returns no value,
which is `none` here. -/
def gleamMapFn (_n : Int) (x y : F) : Option Int :=
  if x * x + y * y < 1 then some 1 else none

/-- The results the Lua map function returns over the input elements, in order;
`none` is a call that returned no value. -/
def gleamMapStage (draw : Nat → F) : Nat → List Int → List (Option Int)
  | _, [] => []
  | pos, n :: ns => gleamMapFn n (draw pos) (draw (pos + 1)) :: gleamMapStage draw (pos + 2) ns

end Sampling

/-- A sample stream for concrete evaluations: the points alternate between
`(1/2, 1/2)`, inside the unit circle, and `(9/10, 9/10)`, outside it. -/
def sampleDraw (k : Nat) : ℚ := if k % 4 < 2 then 1 / 2 else 9 / 10

/-- The same kind of stream in a floating-point format: the points alternate
between `(1/2, 1/2)` and `(7/8, 7/8)`. -/
def samplePoint (p : Nat) (k : Nat) : BinFloat p :=
  if k % 4 < 2 then { mant := 1, scale := 1 } else { mant := 7, scale := 3 }

/-- A stream whose first point is `(5768901 / 2^24, 7877099 / 2^23)`, read in the
format of `p` digits; `x*x + y*y` is `1 - 3339651 / 2^48` in exact arithmetic. -/
def edgePoint (p : Nat) (k : Nat) : BinFloat p :=
  if k = 0 then { mant := 5768901, scale := 24 } else { mant := 7877099, scale := 23 }

/-! ## The partitioner -/

/-- The errors of the engine that the partitioner can raise. -/
inductive EngineError
  | invalidPartitionCount
  deriving DecidableEq, Repr

/-- Modelled from the spec: the shards of the partitioner, whose code is not in
the source slice.  Cuts `l` into `k` consecutive shards of `base` elements each,
the first `extra` of them holding one element more. -/
def splitShards {α : Type} : Nat → Nat → Nat → List α → List (List α)
  | 0, _, _, _ => []
  | k + 1, base, extra, l =>
    let size := base + (if 0 < extra then 1 else 0)
    l.take size :: splitShards k base (extra - 1) (l.drop size)

/-- Modelled from the spec: the partitioning step `Partition(P)` of gleam, whose
code is not in the source slice.  Given an input sequence of length `L` and a
partition count `P ≥ 1` it produces `P` shards, in shard-index order, whose
sizes are `⌈L/P⌉` or `⌊L/P⌋`; it fails with `InvalidPartitionCount` when
`P ≤ 0`. -/
def partitionShards {α : Type} (P : Int) (input : List α) :
    Except EngineError (List (List α)) :=
  if P ≤ 0 then Except.error EngineError.invalidPartitionCount
  else Except.ok
    (splitShards P.toNat (input.length / P.toNat) (input.length % P.toNat) input)

/-! ## `testUnixPipeThroughput` -/

/-- The writer handed to the sink. -/
inductive Writer
  | discard
  deriving DecidableEq, Repr

/-- The steps a gleam flow is built from in `testUnixPipeThroughput`. -/
inductive Step
  | strings (lines : List String)
  | pipeAsArgs (code : String)
  | pipe (code : String)
  | fprintf (writer : Writer) (format : String)
  deriving DecidableEq, Repr

/-- The function `testUnixPipeThroughput(times)`: the flow it builds, step by step.
`gleam.New().Strings(..).PipeAsArgs("cat $1")`, then the loop
`for i := 0; i < 10; i++ { out = out.Pipe("cat") }`, then
`out.Fprintf(ioutil.Discard, "%s\n")`. -/
def testUnixPipeThroughput (_times : Int) (fuel : Nat) : Option (List Step) :=
  let out := [Step.strings ["/Users/chris/Downloads/txt/en/ep-08-*.txt"], Step.pipeAsArgs "cat $1"]
  (forLoop 10 (fun _ out => out ++ [Step.pipe "cat"]) fuel out).map
    fun out => out ++ [Step.fprintf Writer.discard "%s\n"]

/-- The number of pipe steps (`PipeAsArgs` and `Pipe`) of a flow. -/
def pipeSteps (flow : List Step) : Nat :=
  flow.countP fun s =>
    match s with
    | Step.pipeAsArgs _ => true
    | Step.pipe _ => true
    | _ => false


/-! ## The counted loop -/

theorem wrap64_of_range (z : Int) (h1 : -2 ^ 63 ≤ z) (h2 : z < 2 ^ 63) : wrap64 z = z := by
  unfold wrap64; omega

theorem loopRun_final {σ : Type} (bound : Int) (body : Int → σ → σ) (n : Nat) (c : Int × σ)
    (h : ¬ c.1 < bound) : loopRun bound body n c = c := by
  induction n with
  | zero => rfl
  | succ n ih => simp only [loopRun, loopStep, if_neg h]; exact ih

theorem loopRun_add {σ : Type} (bound : Int) (body : Int → σ → σ) (a b : Nat) (c : Int × σ) :
    loopRun bound body (a + b) c = loopRun bound body b (loopRun bound body a c) := by
  induction a generalizing c with
  | zero => simp [loopRun]
  | succ a ih => rw [Nat.succ_add]; simp only [loopRun]; exact ih _

/-- The fold of the loop body over the indices `0, .., n - 1`. -/
theorem loopRun_running {σ : Type} (bound : Int) (hb : bound < 2 ^ 63) (body : Int → σ → σ) :
    ∀ (n k : Nat) (s : σ), (k : Int) + n ≤ bound →
      loopRun bound body n ((k : Int), s)
        = (((k + n : Nat) : Int), (List.range' k n).foldl (fun s (j : Nat) => body (j : Int) s) s) := by
  intro n
  induction n with
  | zero => intro k s _; simp [loopRun]
  | succ n ih =>
    intro k s h
    have hk : (k : Int) < bound := by omega
    have hw : wrap64 ((k : Int) + 1) = ((k + 1 : Nat) : Int) := by
      rw [wrap64_of_range] <;> omega
    simp only [loopRun, loopStep, if_pos hk, hw]
    rw [ih (k + 1) _ (by omega)]
    simp [List.range', Nat.add_assoc, Nat.add_comm 1 n]

theorem loopRun_start {σ : Type} (bound : Int) (hb : bound < 2 ^ 63) (body : Int → σ → σ)
    (n : Nat) (s : σ) :
    loopRun bound body n (0, s)
      = (((min n bound.toNat : Nat) : Int),
          (List.range (min n bound.toNat)).foldl (fun s (j : Nat) => body (j : Int) s) s) := by
  by_cases hneg : bound ≤ 0
  · have h0 : bound.toNat = 0 := by omega
    rw [loopRun_final _ _ _ _ (by simp only; omega), h0]
    simp
  rcases Nat.le_total n bound.toNat with h | h
  · have := loopRun_running bound hb body n 0 s (by omega)
    simp only [Nat.cast_zero, Nat.zero_add] at this
    rw [this, Nat.min_eq_left h, List.range_eq_range']
  · obtain ⟨d, rfl⟩ := Nat.exists_eq_add_of_le h
    have := loopRun_running bound hb body bound.toNat 0 s (by omega)
    simp only [Nat.cast_zero, Nat.zero_add] at this
    rw [loopRun_add, this, loopRun_final _ _ _ _ (by simp only; omega), Nat.min_eq_right h,
      List.range_eq_range']

theorem forLoop_eq {σ : Type} (bound : Int) (hb : bound < 2 ^ 63) (body : Int → σ → σ)
    (fuel : Nat) (hf : bound.toNat ≤ fuel) (s : σ) :
    forLoop bound body fuel s
      = some ((List.range bound.toNat).foldl (fun s (j : Nat) => body (j : Int) s) s) := by
  unfold forLoop
  simp only [loopRun_start bound hb body fuel s, Nat.min_eq_right hf]
  rw [if_neg (by omega)]


/-! ## The sequential loop of `testPureGo` -/

section Sampling

variable {F : Type} [Mul F] [Add F] [One F] [LT F] [DecidableRel (fun a b : F => a < b)]

theorem hits_succ (draw : Nat → F) (n : Nat) :
    hits draw (n + 1) = hits draw n +
      (if draw (2 * n) * draw (2 * n) + draw (2 * n + 1) * draw (2 * n + 1) < 1 then 1 else 0) := by
  unfold hits
  rw [List.range_succ, List.countP_append]
  simp [List.countP_cons]

theorem hits_le (draw : Nat → F) (n : Nat) : hits draw n ≤ n := by
  unfold hits
  exact (List.countP_le_length _).trans_eq (List.length_range n)

theorem hits_congr (d₁ d₂ : Nat → F) (n : Nat) (h : ∀ k, k < 2 * n → d₁ k = d₂ k) :
    hits d₁ n = hits d₂ n := by
  unfold hits
  apply List.countP_congr
  intro i hi
  have hi' : i < n := List.mem_range.mp hi
  rw [h (2 * i) (by omega), h (2 * i + 1) (by omega)]

theorem hits_agree {G : Type} [Mul G] [Add G] [One G] [LT G]
    [DecidableRel (fun a b : G => a < b)] (d : Nat → F) (e : Nat → G) (n : Nat)
    (h : ∀ i, i < n →
      (d (2 * i) * d (2 * i) + d (2 * i + 1) * d (2 * i + 1) < 1
        ↔ e (2 * i) * e (2 * i) + e (2 * i + 1) * e (2 * i + 1) < 1)) :
    hits d n = hits e n := by
  unfold hits
  apply List.countP_congr
  intro i hi
  simp only [decide_eq_true_eq]
  exact h i (List.mem_range.mp hi)

/-- The state of `testPureGo` after `n` runs of the loop body. -/
theorem pureGo_fold (draw : Nat → F) (n : Nat) (hn : (n : Int) < 2 ^ 63) :
    (List.range n).foldl (fun s (j : Nat) => pureGoBody draw (j : Int) s) { count := 0, pos := 0 }
      = { count := (hits draw n : Int), pos := 2 * n } := by
  induction n with
  | zero => simp [hits]
  | succ n ih =>
    have hle := hits_le draw n
    rw [List.range_succ, List.foldl_append, ih (by omega), hits_succ]
    simp only [List.foldl_cons, List.foldl_nil, pureGoBody]
    by_cases hc : draw (2 * n) * draw (2 * n) + draw (2 * n + 1) * draw (2 * n + 1) < 1
    · simp only [if_pos hc]
      rw [wrap64_of_range _ (by omega) (by omega)]
      simp [Nat.mul_succ]
    · simp only [if_neg hc]
      simp [Nat.mul_succ]

theorem pureGoRun_eq (times : Int) (ht : times < 2 ^ 63) (draw : Nat → F) (n : Nat) :
    pureGoRun times draw n
      = (((min n times.toNat : Nat) : Int),
          { count := (hits draw (min n times.toNat) : Int), pos := 2 * min n times.toNat }) := by
  unfold pureGoRun
  rw [loopRun_start times ht, pureGo_fold draw _ (by omega)]

theorem testPureGo_eq (times : Int) (ht : times < 2 ^ 63) (draw : Nat → F) (fuel : Nat)
    (hf : times.toNat ≤ fuel) :
    testPureGo times draw fuel
      = some ((hits draw times.toNat : Int), piEstimate (hits draw times.toNat : Int) times) := by
  unfold testPureGo
  rw [forLoop_eq times ht _ fuel hf, pureGo_fold draw _ (by omega)]
  rfl

/-! ## The channel pipeline of `testLocalFlow` -/

theorem flowSource_eq (times : Int) (ht : times < 2 ^ 63) (fuel : Nat)
    (hf : times.toNat ≤ fuel) :
    flowSource times fuel = some ((List.range times.toNat).map Int.ofNat) := by
  unfold flowSource
  rw [forLoop_eq times ht _ fuel hf]
  congr 1
  induction times.toNat with
  | zero => rfl
  | succ n ih => rw [List.range_succ, List.foldl_append, ih]; simp

theorem flowMapStage_length (draw : Nat → F) (pos : Nat) (l : List Int) :
    (flowMapStage draw pos l).length = l.length := by
  induction l generalizing pos with
  | nil => rfl
  | cons t ts ih => simp [flowMapStage, ih]

theorem flowMapStage_getElem? (draw : Nat → F) (pos : Nat) (l : List Int) (j : Nat) :
    (flowMapStage draw pos l)[j]?
      = (l[j]?).map fun t => flowMapFn t (draw (pos + 2 * j)) (draw (pos + 2 * j + 1)) := by
  induction l generalizing pos j with
  | nil => simp [flowMapStage]
  | cons t ts ih =>
    cases j with
    | zero => simp [flowMapStage]
    | succ j =>
      simp only [flowMapStage, List.getElem?_cons_succ, ih]
      have e : pos + 2 + 2 * j = pos + 2 * (j + 1) := by omega
      rw [e]

theorem flowMapStage_mem (draw : Nat → F) (pos : Nat) (l : List Int) (v : Int)
    (hv : v ∈ flowMapStage draw pos l) : v = 0 ∨ v = 1 := by
  induction l generalizing pos with
  | nil => simp [flowMapStage] at hv
  | cons t ts ih =>
    simp only [flowMapStage, List.mem_cons] at hv
    rcases hv with h | h
    · subst h; unfold flowMapFn; split <;> simp
    · exact ih _ h

theorem flowMapStage_append (draw : Nat → F) (pos : Nat) (l₁ l₂ : List Int) :
    flowMapStage draw pos (l₁ ++ l₂)
      = flowMapStage draw pos l₁ ++ flowMapStage draw (pos + 2 * l₁.length) l₂ := by
  induction l₁ generalizing pos with
  | nil => simp [flowMapStage]
  | cons t ts ih =>
    have e : pos + 2 + 2 * ts.length = pos + 2 * (ts.length + 1) := by omega
    rw [List.cons_append, flowMapStage, flowMapStage, ih, List.length_cons, e, List.cons_append]

/-- The sum of the indicators over the channel elements `0, .., n - 1`. -/
theorem foldl_stage (draw : Nat → F) (n : Nat) (hn : (n : Int) < 2 ^ 63) :
    (flowMapStage draw 0 ((List.range n).map Int.ofNat)).foldl goCombine 0
      = (hits draw n : Int) := by
  induction n with
  | zero => rfl
  | succ n ih =>
    have hle := hits_le draw n
    have ih' := ih (by omega)
    rw [List.range_succ, List.map_append, flowMapStage_append, List.foldl_append, ih', hits_succ]
    simp only [List.map_cons, List.map_nil, flowMapStage, List.foldl_cons, List.foldl_nil,
      List.length_map, List.length_range, Nat.zero_add, goCombine, flowMapFn]
    by_cases hc : draw (2 * n) * draw (2 * n) + draw (2 * n + 1) * draw (2 * n + 1) < 1
    · simp only [if_pos hc]
      rw [wrap64_of_range _ (by omega) (by omega)]
      simp
    · simp only [if_neg hc]
      rw [wrap64_of_range _ (by omega) (by omega)]
      simp

/-- On a non-empty list that starts with a value of the `int` range, the seedless
reduce delivers the sum. -/
theorem localReduce_goCombine (x : Int) (xs : List Int) (h1 : -2 ^ 63 ≤ x) (h2 : x < 2 ^ 63) :
    localReduce goCombine (x :: xs) = some ((x :: xs).foldl goCombine 0) := by
  simp only [localReduce, List.foldl_cons, goCombine]
  rw [Int.zero_add, wrap64_of_range x h1 h2]

theorem localReduce_stage (draw : Nat → F) (n : Nat) (hn : (n : Int) < 2 ^ 63) :
    localReduce goCombine (flowMapStage draw 0 ((List.range n).map Int.ofNat))
      = if 0 < n then some (hits draw n : Int) else none := by
  have hs := foldl_stage draw n hn
  have hl := flowMapStage_length draw 0 ((List.range n).map Int.ofNat)
  have hm := flowMapStage_mem draw 0 ((List.range n).map Int.ofNat)
  generalize flowMapStage draw 0 ((List.range n).map Int.ofNat) = l at hs hl hm
  cases l with
  | nil =>
    simp only [List.length_nil, List.length_map, List.length_range] at hl
    subst hl; rfl
  | cons x xs =>
    simp only [List.length_cons, List.length_map, List.length_range] at hl
    have hx := hm x (List.mem_cons_self _ _)
    rw [localReduce_goCombine x xs (by omega) (by omega), hs, if_pos (by omega)]

theorem testLocalFlow_eq (times : Int) (ht : times < 2 ^ 63) (draw : Nat → F) (fuel : Nat)
    (hf : times.toNat ≤ fuel) :
    testLocalFlow times draw fuel
      = some (if 0 < times
          then [((hits draw times.toNat : Int), piEstimate (hits draw times.toNat : Int) times)]
          else []) := by
  unfold testLocalFlow
  rw [flowSource_eq times ht fuel hf, Option.map_some', localReduce_stage draw _ (by omega)]
  by_cases h : 0 < times
  · rw [if_pos h, if_pos (by omega)]; rfl
  · rw [if_neg h, if_neg (by omega)]; rfl

end Sampling

/-! ## Reduce and the order of its input -/

theorem goCombine_right_comm (a x y : Int) :
    goCombine (goCombine a x) y = goCombine (goCombine a y) x := by
  unfold goCombine wrap64; omega

theorem bitLen_le (fuel m p : Nat) (h : m < 2 ^ p) : bitLen fuel m ≤ p := by
  induction fuel generalizing m p with
  | zero => exact Nat.zero_le _
  | succ fuel ih =>
    unfold bitLen
    split
    · exact Nat.zero_le _
    · cases p with
      | zero => omega
      | succ p =>
        have h2 : m / 2 < 2 ^ p := by rw [Nat.pow_succ] at h; omega
        exact Nat.succ_le_succ (ih _ _ h2)

theorem roundMant_of_lt (p m : Nat) (h : m < 2 ^ p) : roundMant p m = m := by
  have hk : bits m - p = 0 := Nat.sub_eq_zero_of_le (bitLen_le m m p h)
  unfold roundMant
  simp [hk, Nat.mod_one]

theorem roundMant_53_pow : roundMant 53 (2 ^ 53) = 2 ^ 53 := by decide

/-- Whole numbers from 0 to `2 ^ 53` are doubles. -/
theorem roundDouble_of_le (z : Int) (h0 : 0 ≤ z) (h1 : z ≤ 2 ^ 53) : roundDouble z = some z := by
  have hr : roundMant 53 z.natAbs = z.natAbs := by
    rcases Nat.lt_or_ge z.natAbs (2 ^ 53) with h | h
    · exact roundMant_of_lt 53 _ h
    · have e : z.natAbs = 2 ^ 53 := by omega
      rw [e]; exact roundMant_53_pow
  have hb : bits z.natAbs ≤ 1024 :=
    (bitLen_le _ _ 54 (by omega)).trans (by decide)
  unfold roundDouble
  simp only [hr, if_pos hb, if_neg (by omega : ¬ z < 0)]
  congr 1
  omega

/-- A fold of the Lua `count` over non-negative whole numbers is the exact sum as
long as the total stays within `2 ^ 53`. -/
theorem foldl_luaCount (l : List Int) (a : Int) (ha : 0 ≤ a) (hl : ∀ x ∈ l, 0 ≤ x)
    (hs : a + l.sum ≤ 2 ^ 53) : (l.map some).foldl luaCount (some a) = some (a + l.sum) := by
  induction l generalizing a with
  | nil => simp
  | cons x xs ih =>
    have hx : 0 ≤ x := hl x (List.mem_cons_self _ _)
    have hxs : ∀ y ∈ xs, 0 ≤ y := fun y hy => hl y (List.mem_cons_of_mem _ hy)
    have h0 : 0 ≤ xs.sum := List.sum_nonneg hxs
    rw [List.sum_cons] at hs
    rw [List.map_cons, List.foldl_cons]
    have e : luaCount (some a) (some x) = some (a + x) :=
      roundDouble_of_le (a + x) (by omega) (by omega)
    rw [e, ih (a + x) (by omega) hxs (by omega), List.sum_cons, Int.add_assoc]

theorem localReduce_luaCount (l : List Int) (hl : ∀ x ∈ l, 0 ≤ x) (hs : l.sum ≤ 2 ^ 53) :
    localReduce luaCount (l.map some) = if l = [] then none else some (some l.sum) := by
  cases l with
  | nil => rfl
  | cons x xs =>
    rw [List.sum_cons] at hs
    rw [List.map_cons, localReduce,
      foldl_luaCount xs x (hl x (List.mem_cons_self _ _))
        (fun y hy => hl y (List.mem_cons_of_mem _ hy)) hs, if_neg (List.cons_ne_nil _ _),
      List.sum_cons]

/-- A seedless reduce with a commutative combiner whose folds may be exchanged
does not depend on the order of its input. -/
theorem localReduce_perm {α : Type} (f : α → α → α) (hc : ∀ a b, f a b = f b a)
    (hr : ∀ a b c, f (f a b) c = f (f a c) b) {l₁ l₂ : List α} (p : l₁.Perm l₂) :
    localReduce f l₁ = localReduce f l₂ := by
  induction p with
  | nil => rfl
  | cons x p _ =>
    simp only [localReduce]
    exact congrArg some (p.foldl_eq' (fun a _ b _ c => hr c a b) x)
  | swap x y l => simp only [localReduce, List.foldl_cons, hc x y]
  | trans _ _ ih₁ ih₂ => exact ih₁.trans ih₂

/-! ## The partitioner -/

theorem splitShards_length {α : Type} (k base extra : Nat) (l : List α) :
    (splitShards k base extra l).length = k := by
  induction k generalizing extra l with
  | zero => rfl
  | succ k ih => simp [splitShards, ih]

theorem splitShards_flatten {α : Type} (k base extra : Nat) (l : List α) (he : extra ≤ k)
    (hl : l.length = k * base + extra) : (splitShards k base extra l).flatten = l := by
  induction k generalizing extra l with
  | zero =>
    have h0 : l.length = 0 := by omega
    simp [splitShards, List.length_eq_zero.mp h0]
  | succ k ih =>
    simp only [splitShards, List.flatten_cons]
    rw [ih (extra - 1) _ (by omega), List.take_append_drop]
    rw [List.length_drop, hl, Nat.succ_mul]
    split <;> omega

/-! ## The claims -/

/-- C1, as amended: for every list of counts and every permutation of it,
folding the combiner of `testLocalFlow` over the permuted list gives the same
result as folding it over the original list, from any initial value and for the
seedless reduce; for the Lua function `count`, which adds doubles, the same
holds when the counts are non-negative whole numbers of total at most `2^53`. -/
theorem reduce_perm_invariant (l₁ l₂ : List Int) (p : l₁.Perm l₂) :
    (∀ init, l₁.foldl goCombine init = l₂.foldl goCombine init) ∧
    localReduce goCombine l₁ = localReduce goCombine l₂ ∧
    ((∀ x ∈ l₁, 0 ≤ x) → l₁.sum ≤ 2 ^ 53 →
      localReduce luaCount (l₁.map some) = localReduce luaCount (l₂.map some)) := by
  refine ⟨fun init => p.foldl_eq' (fun a _ b _ c => goCombine_right_comm c a b) init,
    localReduce_perm goCombine (fun a b => by unfold goCombine; rw [Int.add_comm])
      goCombine_right_comm p, fun hl hs => ?_⟩
  have hl₂ : ∀ x ∈ l₂, 0 ≤ x := fun x hx => hl x (p.mem_iff.mpr hx)
  have hsum : l₁.sum = l₂.sum := p.sum_eq
  have hnil : l₁ = [] ↔ l₂ = [] := by
    constructor
    · intro h; subst h; exact p.nil_eq.symm
    · intro h; subst h; exact p.eq_nil
  rw [localReduce_luaCount l₁ hl hs, localReduce_luaCount l₂ hl₂ (hsum ▸ hs), hsum]
  by_cases h : l₁ = []
  · rw [if_pos h, if_pos (hnil.mp h)]
  · rw [if_neg h, if_neg (fun h₂ => h (hnil.mpr h₂))]

theorem reduce_perm_invariant_witness :
    ([3, 2 ^ 53 - 8, 5] : List Int).Perm [5, 3, 2 ^ 53 - 8] ∧
    localReduce goCombine [3, 2 ^ 53 - 8, 5] = localReduce goCombine [5, 3, 2 ^ 53 - 8] ∧
    localReduce luaCount ([3, 2 ^ 53 - 8, 5].map some)
      = localReduce luaCount ([5, 3, 2 ^ 53 - 8].map some) ∧
    localReduce luaCount ([5, 3, 2 ^ 53 - 8].map some) = some (some (2 ^ 53)) :=
  have h := reduce_perm_invariant [3, 2 ^ 53 - 8, 5] [5, 3, 2 ^ 53 - 8] (by decide)
  ⟨by decide, h.2.1, h.2.2 (by decide) (by decide), by decide⟩

/-- C1, the claim as stated fails for the Lua function `count`: `[1, 1, 2^53]` is
a permutation of `[2^53, 1, 1]`, the fold over the first gives `2^53 + 2` and
the fold over the second gives `2^53`, since `2^53 + 1` is not a double. -/
theorem luaCount_order_matters :
    ([1, 1, 2 ^ 53] : List Int).Perm [2 ^ 53, 1, 1] ∧
    luaCount (some (2 ^ 53)) (some 1) = some (2 ^ 53) ∧
    localReduce luaCount ([2 ^ 53, 1, 1].map some) = some (some (2 ^ 53)) ∧
    localReduce luaCount ([1, 1, 2 ^ 53].map some) = some (some (2 ^ 53 + 2)) ∧
    localReduce luaCount ([1, 1, 2 ^ 53].map some)
      ≠ localReduce luaCount ([2 ^ 53, 1, 1].map some) := by
  decide

/-- C2: the combiner `func(x, y int) int { return x + y }` of `testLocalFlow` is
commutative and associative on wrapping 64-bit integers, overflowing additions
included, and its result is again a 64-bit integer. -/
theorem goCombine_comm_assoc (x y z : Int) :
    goCombine x y = goCombine y x ∧
    goCombine (goCombine x y) z = goCombine x (goCombine y z) ∧
    -2 ^ 63 ≤ goCombine x y ∧ goCombine x y < 2 ^ 63 := by
  refine ⟨?_, ?_, ?_, ?_⟩ <;> unfold goCombine wrap64 <;> omega

section Claims

variable {F : Type} [Mul F] [Add F] [One F] [LT F] [DecidableRel (fun a b : F => a < b)]

/-- C3: the map function of `testLocalFlow` is the indicator of the unit circle,
whatever its input element: it returns 1 if `x*x + y*y < 1` and 0 otherwise.
Mapping it over a list of inputs yields a list of the same length whose entry
`j` is the indicator of the `j`-th sampled point, and whose entries are all 0
or 1. -/
theorem flowMap_indicator (draw : Nat → F) (pos : Nat) (l : List Int) :
    (∀ (t u : Int) (x y : F),
      flowMapFn t x y = (if x * x + y * y < 1 then 1 else 0) ∧
      flowMapFn t x y = flowMapFn u x y) ∧
    (flowMapStage draw pos l).length = l.length ∧
    (∀ j, (flowMapStage draw pos l)[j]?
      = (l[j]?).map fun _ =>
          if draw (pos + 2 * j) * draw (pos + 2 * j)
              + draw (pos + 2 * j + 1) * draw (pos + 2 * j + 1) < 1 then (1 : Int) else 0) ∧
    (flowMapStage draw pos l).all (fun v => decide (v = 0 ∨ v = 1)) = true := by
  refine ⟨fun t u x y => ⟨rfl, rfl⟩, flowMapStage_length draw pos l, fun j => ?_, ?_⟩
  · rw [flowMapStage_getElem?]; rfl
  · rw [List.all_eq_true]
    intro v hv
    exact decide_eq_true (flowMapStage_mem draw pos l v hv)

/-- C4: `testPureGo` returns for every `times` of the `int` range, so for every
`times ≥ 0`: its final `count` is the number of indices `i < times` whose
sampled point satisfies `x_i*x_i + y_i*y_i < 1`, and the printed estimate is
`4 * count / times` (no number when `times = 0`). -/
theorem testPureGo_count (times : Int) (draw : Nat → F) (fuel : Nat)
    (ht : times < 2 ^ 63) (hf : times.toNat ≤ fuel) :
    testPureGo times draw fuel
      = some ((hits draw times.toNat : Int),
          if times = 0 then none
          else some (4 * ((hits draw times.toNat : Int) : ℚ) / (times : ℚ))) := by
  rw [testPureGo_eq times ht draw fuel hf]; rfl

theorem testPureGo_count_witness :
    testPureGo (4 : Int) sampleDraw 4 = some (2, some 2) := by
  have h := testPureGo_count (4 : Int) sampleDraw 4 (by decide) (by decide)
  have e : hits sampleDraw (4 : Int).toNat = 2 := by
    simp [hits, List.range_succ, sampleDraw]
    norm_num
  rw [h, e]
  norm_num

/-- C5, as amended: the Lua map function of `testLocalGleam` and
`testDistributedGleam` returns 1 if the sampled point satisfies `x*x + y*y < 1`
and returns no value otherwise; called on each element of a list of inputs, in
order, it returns the single value 1 or nothing, so at most one output value
per input element. -/
theorem gleamMap_results (draw : Nat → F) (pos : Nat) (l : List Int) :
    (∀ (n : Int) (x y : F),
      gleamMapFn n x y = (if x * x + y * y < 1 then some 1 else none)) ∧
    (gleamMapStage draw pos l).length = l.length ∧
    (∀ j, (gleamMapStage draw pos l)[j]?
      = (l[j]?).map fun _ =>
          if draw (pos + 2 * j) * draw (pos + 2 * j)
              + draw (pos + 2 * j + 1) * draw (pos + 2 * j + 1) < 1 then some (1 : Int)
          else none) ∧
    (gleamMapStage draw pos l).all (fun r => decide (r = some 1 ∨ r = none)) = true := by
  refine ⟨fun n x y => rfl, ?_, ?_, ?_⟩
  · induction l generalizing pos with
    | nil => rfl
    | cons n ns ih => simp [gleamMapStage, ih]
  · intro j
    induction l generalizing pos j with
    | nil => simp [gleamMapStage]
    | cons n ns ih =>
      cases j with
      | zero => simp [gleamMapStage, gleamMapFn]
      | succ j =>
        have e : pos + 2 + 2 * j = pos + 2 * (j + 1) := by omega
        rw [gleamMapStage, List.getElem?_cons_succ, List.getElem?_cons_succ, ih, e]
  · induction l generalizing pos with
    | nil => rfl
    | cons n ns ih =>
      rw [gleamMapStage, List.all_cons, ih, Bool.and_true]
      unfold gleamMapFn
      split <;> simp

/-- C5, the claim as stated fails: for the point `(9/10, 9/10)`, outside the unit
circle, the Lua map function returns no value, not 0. -/
theorem gleamMap_outside_no_value :
    gleamMapFn (1 : Int) (9 / 10 : ℚ) (9 / 10) = none ∧
    gleamMapFn (1 : Int) (9 / 10 : ℚ) (9 / 10)
      ≠ some (if (9 / 10 : ℚ) * (9 / 10) + (9 / 10) * (9 / 10) < 1 then 1 else 0) := by
  have h : gleamMapFn (1 : Int) (9 / 10 : ℚ) (9 / 10) = none := by
    unfold gleamMapFn
    norm_num
  rw [h]
  exact ⟨rfl, fun hn => Option.noConfusion hn⟩

/-- C6: two runs with the same `times` and sample streams that agree on the
`2 * times` draws a run consumes give the same result, for `testPureGo` and for
the map/reduce of `testLocalFlow`; both runs return. -/
theorem runs_deterministic (times : Int) (d₁ d₂ : Nat → F) (fuel₁ fuel₂ : Nat)
    (ht : times < 2 ^ 63) (hf₁ : times.toNat ≤ fuel₁) (hf₂ : times.toNat ≤ fuel₂)
    (hd : ∀ k, k < 2 * times.toNat → d₁ k = d₂ k) :
    (testPureGo times d₁ fuel₁).isSome = true ∧
    testPureGo times d₁ fuel₁ = testPureGo times d₂ fuel₂ ∧
    (testLocalFlow times d₁ fuel₁).isSome = true ∧
    testLocalFlow times d₁ fuel₁ = testLocalFlow times d₂ fuel₂ := by
  rw [testPureGo_eq times ht d₁ fuel₁ hf₁, testPureGo_eq times ht d₂ fuel₂ hf₂,
    testLocalFlow_eq times ht d₁ fuel₁ hf₁, testLocalFlow_eq times ht d₂ fuel₂ hf₂,
    hits_congr d₁ d₂ times.toNat hd]
  exact ⟨rfl, rfl, rfl, rfl⟩

theorem runs_deterministic_witness :
    testPureGo (4 : Int) sampleDraw 4
      = testPureGo (4 : Int) (fun k => if k < 8 then sampleDraw k else 0) 7 ∧
    testLocalFlow (4 : Int) sampleDraw 4
      = testLocalFlow (4 : Int) (fun k => if k < 8 then sampleDraw k else 0) 7 :=
  have h := runs_deterministic (4 : Int) sampleDraw (fun k => if k < 8 then sampleDraw k else 0)
    4 7 (by decide) (by decide) (by decide)
    (fun k hk => by
      have hk8 : k < 8 := hk
      simp only [if_pos hk8])
  ⟨h.2.1, h.2.2.2⟩

/-- C7: for every input sequence of length `L` and every partition count `P ≥ 1`,
in particular for all `1 ≤ P ≤ L`, the partitioning step produces `P` shards
whose concatenation in shard-index order is the input sequence. -/
theorem partition_concat {α : Type} (P : Int) (input : List α) (hP : 1 ≤ P) :
    ∃ shards, partitionShards P input = Except.ok shards ∧ (shards.length : Int) = P ∧
      shards.flatten = input := by
  refine ⟨_, by unfold partitionShards; rw [if_neg (by omega)], ?_, ?_⟩
  · rw [splitShards_length]; omega
  · have hpos : 0 < P.toNat := by omega
    apply splitShards_flatten
    · exact (Nat.mod_lt _ hpos).le
    · exact (Nat.div_add_mod _ _).symm

theorem partition_concat_witness :
    ∃ shards, partitionShards (2 : Int) [1, 2, 3, 4, 5] = Except.ok shards ∧
      (shards.length : Int) = 2 ∧ shards.flatten = [1, 2, 3, 4, 5] :=
  partition_concat (2 : Int) [1, 2, 3, 4, 5] (by decide)

/-- C8, as amended: the source goroutine of `testLocalFlow` sends exactly
`0, 1, .., times - 1`, in increasing order.  When the `float32` test of the map
stage and the `float64` test of `testPureGo` decide each of the `times` sampled
points alike, then for `times ≥ 1` the reduce of the map stage's indicators
over those elements delivers the final `count` of `testPureGo`, and the
pipeline prints that count and the same estimate; for `times ≤ 0` the reduce
delivers no value and the pipeline prints nothing. -/
theorem flow_refines_pureGo {G : Type} [Mul G] [Add G] [One G] [LT G]
    [DecidableRel (fun a b : G => a < b)] (times : Int) (d32 : Nat → F) (d64 : Nat → G)
    (fuel : Nat) (ht : times < 2 ^ 63) (hf : times.toNat ≤ fuel)
    (hagree : ∀ i, i < times.toNat →
      (d32 (2 * i) * d32 (2 * i) + d32 (2 * i + 1) * d32 (2 * i + 1) < 1
        ↔ d64 (2 * i) * d64 (2 * i) + d64 (2 * i + 1) * d64 (2 * i + 1) < 1)) :
    flowSource times fuel = some ((List.range times.toNat).map Int.ofNat) ∧
    ∃ count est, testPureGo times d64 fuel = some (count, est) ∧
      localReduce goCombine (flowMapStage d32 0 ((List.range times.toNat).map Int.ofNat))
        = (if 0 < times then some count else none) ∧
      testLocalFlow times d32 fuel = some (if 0 < times then [(count, est)] else []) := by
  have hh := hits_agree d32 d64 times.toNat hagree
  refine ⟨flowSource_eq times ht fuel hf, _, _, testPureGo_eq times ht d64 fuel hf, ?_, ?_⟩
  · rw [localReduce_stage d32 _ (by omega), hh]
    by_cases h : 0 < times
    · rw [if_pos h, if_pos (by omega)]
    · rw [if_neg h, if_neg (by omega)]
  · rw [testLocalFlow_eq times ht d32 fuel hf, hh]

theorem flow_refines_pureGo_witness :
    flowSource (4 : Int) 4 = some [0, 1, 2, 3] ∧
    ∃ count est, testPureGo (4 : Int) (samplePoint 53) 4 = some (count, est) ∧
      localReduce goCombine (flowMapStage (samplePoint 24) 0 [0, 1, 2, 3]) = some count ∧
      testLocalFlow (4 : Int) (samplePoint 24) 4 = some [(count, est)] :=
  flow_refines_pureGo (4 : Int) (samplePoint 24) (samplePoint 53) 4 (by decide) (by decide)
    (by decide)

/-- C8, the claim as stated fails.  For `times = 0` the source sends nothing and
the pipeline delivers no count, where `testPureGo` ends with `count = 0`.  For
`times = 1` and the sampled point `(5768901 / 2^24, 7877099 / 2^23)` the
`float32` test of the pipeline rounds `x*x + y*y` to 1 and counts 0, where the
`float64` test of `testPureGo` is exact and counts 1. -/
theorem flow_differs_from_pureGo :
    (testLocalFlow (0 : Int) (edgePoint 24) 0 = some [] ∧
      (testPureGo (0 : Int) (edgePoint 53) 0).map Prod.fst = some 0) ∧
    ((testLocalFlow (1 : Int) (edgePoint 24) 1).map (List.map Prod.fst) = some [0] ∧
      (testPureGo (1 : Int) (edgePoint 53) 1).map Prod.fst = some 1) := by
  decide

/-- C9: for every `times` of the `int` range the loop of `testPureGo` terminates;
`0 ≤ count ≤ i` holds in every configuration of the loop, so on exit
`0 ≤ count ≤ max(times, 0)`; for `times > 0` the estimate `4 * count / times`
lies in `[0, 4]`, and for `times ≤ 0` the loop body never runs and `count = 0`. -/
theorem testPureGo_bounds (times : Int) (draw : Nat → F) (ht : times < 2 ^ 63) :
    (∀ fuel, times.toNat ≤ fuel →
      ∃ count est, testPureGo times draw fuel = some (count, est) ∧
        0 ≤ count ∧ count ≤ max times 0 ∧
        (0 < times → ∃ q : ℚ, est = some q ∧ 0 ≤ q ∧ q ≤ 4) ∧
        (times ≤ 0 → count = 0)) ∧
    (∀ n, 0 ≤ (pureGoRun times draw n).2.count ∧
      (pureGoRun times draw n).2.count ≤ (pureGoRun times draw n).1 ∧
      (pureGoRun times draw n).1 ≤ max times 0) ∧
    (times ≤ 0 → ∀ n, pureGoRun times draw n = (0, { count := 0, pos := 0 })) := by
  refine ⟨fun fuel hf => ?_, fun n => ?_, fun hneg n => ?_⟩
  · have hle := hits_le draw times.toNat
    refine ⟨_, _, testPureGo_eq times ht draw fuel hf, by omega, by omega, fun hpos => ?_,
      fun hneg => ?_⟩
    · have hq : (0 : ℚ) < (times : ℚ) := by exact_mod_cast hpos
      have hc0 : (0 : ℚ) ≤ ((hits draw times.toNat : Int) : ℚ) := by exact_mod_cast Nat.zero_le _
      have hc1 : ((hits draw times.toNat : Int) : ℚ) ≤ (times : ℚ) := by
        have : (hits draw times.toNat : Int) ≤ times := by omega
        exact_mod_cast this
      refine ⟨4 * ((hits draw times.toNat : Int) : ℚ) / (times : ℚ), ?_, ?_, ?_⟩
      · unfold piEstimate; rw [if_neg (by omega)]
      · exact div_nonneg (by linarith) hq.le
      · rw [div_le_iff₀ hq]; linarith
    · omega
  · have hle := hits_le draw (min n times.toNat)
    rw [pureGoRun_eq times ht draw n]
    simp only
    omega
  · have h0 : times.toNat = 0 := by omega
    rw [pureGoRun_eq times ht draw n, h0]
    simp [hits]

theorem testPureGo_bounds_witness :
    ∃ count est, testPureGo (4 : Int) sampleDraw 4 = some (count, est) ∧
      0 ≤ count ∧ count ≤ max 4 0 ∧
      ((0 : Int) < 4 → ∃ q : ℚ, est = some q ∧ 0 ≤ q ∧ q ≤ 4) ∧
      ((4 : Int) ≤ 0 → count = 0) :=
  (testPureGo_bounds (4 : Int) sampleDraw (by decide)).1 4 (by decide)

end Claims

/-- C10: the pipeline built by `testUnixPipeThroughput` does not depend on
`times`: it is the one-string source, one `PipeAsArgs("cat $1")` step, exactly
10 `Pipe("cat")` steps (11 pipe steps in all) and the `Fprintf` sink; two calls
with different `times` build the same pipeline. -/
theorem unixPipe_pipeline (times times' : Int) (fuel : Nat) (hf : 10 ≤ fuel) :
    testUnixPipeThroughput times fuel
      = some ([Step.strings ["/Users/chris/Downloads/txt/en/ep-08-*.txt"],
            Step.pipeAsArgs "cat $1"]
          ++ List.replicate 10 (Step.pipe "cat")
          ++ [Step.fprintf Writer.discard "%s\n"]) ∧
    (testUnixPipeThroughput times fuel).map pipeSteps = some 11 ∧
    testUnixPipeThroughput times fuel = testUnixPipeThroughput times' fuel := by
  have h : ∀ t : Int, testUnixPipeThroughput t fuel
      = some ([Step.strings ["/Users/chris/Downloads/txt/en/ep-08-*.txt"],
            Step.pipeAsArgs "cat $1"]
          ++ List.replicate 10 (Step.pipe "cat")
          ++ [Step.fprintf Writer.discard "%s\n"]) := by
    intro t
    unfold testUnixPipeThroughput
    dsimp only
    rw [forLoop_eq 10 (by decide) _ fuel hf]
    rfl
  refine ⟨h times, ?_, (h times).trans (h times').symm⟩
  rw [h times]
  rfl

theorem unixPipe_pipeline_witness :
    (testUnixPipeThroughput (10485760 : Int) 10).map List.length = some 13 ∧
    (testUnixPipeThroughput (10485760 : Int) 10).map pipeSteps = some 11 ∧
    testUnixPipeThroughput (10485760 : Int) 10 = testUnixPipeThroughput (0 : Int) 10 :=
  have h := unixPipe_pipeline (10485760 : Int) (0 : Int) 10 (by decide)
  ⟨by rw [h.1]; rfl, h.2.1, h.2.2⟩

end PiEstimation
